import Mathlib

/-!
Verification development for the Radar-iRacing angular projection engine.

The definitions below are a shallow embedding of the TypeScript source:
JavaScript numbers are modelled as real numbers, `undefined`-able values as
`Option`, and `Math.sqrt` / `Math.sin` / `Math.cos` / `Math.atan2` as their
mathematical counterparts.  Each definition carries a reference to the
source function it embeds.
-/

namespace Radar

/-- Embedding of the interface `Position` from src/types/radar.ts:
a 3D world-space point with coordinates in meters. -/
@[ext]
structure Position where
  x : ℝ
  y : ℝ
  z : ℝ

/-- Embedding of the interface `Player` from src/types/radar.ts:
a position together with a heading (yaw, radians). -/
structure Player where
  position : Position
  yaw : ℝ

/-- Embedding of the union type `CarClass` from src/types/radar.ts.
The source field name `class` is a reserved word in Lean, so the
embedding of `Car` names it `carClass`. -/
inductive CarClass
  | LMDh
  | LMP2
  | LMGT3
  | SafetyCar
  | Unknown

/-- Embedding of the interface `Car` from src/types/radar.ts.  The
optional fields `speed?`, `yaw?` and `distance?` become `Option ℝ`. -/
structure Car where
  position : Position
  carClass : CarClass
  speed : Option ℝ
  yaw : Option ℝ
  distance : Option ℝ

/-- Embedding of `calculateDistance` from src/utils/math.ts: the Euclidean
distance between two positions, `sqrt(dx*dx + dy*dy + dz*dz)` with
`dx = pos2.x - pos1.x` and so on. -/
noncomputable def calculateDistance (pos1 pos2 : Position) : ℝ :=
  let dx := pos2.x - pos1.x
  let dy := pos2.y - pos1.y
  let dz := pos2.z - pos1.z
  Real.sqrt (dx * dx + dy * dy + dz * dz)

/-- Helper for the termination of the angle-normalisation loops:
the ceiling measure strictly drops when the argument decreases by 1,
as long as it is still positive. -/
theorem ceil_pred_lt (x : ℝ) (hx : 0 < x) : Nat.ceil (x - 1) < Nat.ceil x := by
  have h1 : 0 < Nat.ceil x := Nat.ceil_pos.mpr hx
  have h2 : Nat.ceil (x - 1) ≤ Nat.ceil x - 1 := by
    rw [Nat.ceil_le]
    have h3 := Nat.le_ceil x
    have h5 : (1 : ℕ) ≤ Nat.ceil x := h1
    have h4 : ((Nat.ceil x - 1 : ℕ) : ℝ) = (Nat.ceil x : ℝ) - 1 := by
      push_cast [h5]
      ring
    rw [h4]
    linarith
  omega

/-- Embedding of the first normalisation loop of `unwrapAngle`
(src math.ts, newer version): `while (delta > Math.PI) delta -= 2 * Math.PI`. -/
noncomputable def subLoop (delta : ℝ) : ℝ :=
  if h : Real.pi < delta then subLoop (delta - 2 * Real.pi) else delta
termination_by Nat.ceil ((delta - Real.pi) / (2 * Real.pi))
decreasing_by
  have hπ : (0 : ℝ) < 2 * Real.pi := by positivity
  have h1 : (delta - 2 * Real.pi - Real.pi) / (2 * Real.pi)
      = (delta - Real.pi) / (2 * Real.pi) - 1 := by
    field_simp
    ring
  have h2 : 0 < (delta - Real.pi) / (2 * Real.pi) :=
    div_pos (by linarith) hπ
  simpa [h1] using ceil_pred_lt _ h2

/-- Embedding of the second normalisation loop of `unwrapAngle`:
`while (delta < -Math.PI) delta += 2 * Math.PI`. -/
noncomputable def addLoop (delta : ℝ) : ℝ :=
  if h : delta < -Real.pi then addLoop (delta + 2 * Real.pi) else delta
termination_by Nat.ceil ((-Real.pi - delta) / (2 * Real.pi))
decreasing_by
  have hπ : (0 : ℝ) < 2 * Real.pi := by positivity
  have h1 : (-Real.pi - (delta + 2 * Real.pi)) / (2 * Real.pi)
      = (-Real.pi - delta) / (2 * Real.pi) - 1 := by
    field_simp
    ring
  have h2 : 0 < (-Real.pi - delta) / (2 * Real.pi) :=
    div_pos (by linarith) hπ
  simpa [h1] using ceil_pred_lt _ h2

/-- Embedding of `unwrapAngle` from src math.ts (newer version): the raw
delta `currentAngle - previousAngle` is normalised into `[-π, π]` by the
two `while` loops (`subLoop` then `addLoop`, in source order) and added
back to `previousAngle`.  The source's first guard
(`previousAngle === null || isNaN(previousAngle)`) returns `currentAngle`
unchanged for a null/NaN previous angle; it is vacuous here because the
embedding quantifies over finite real angles only. -/
noncomputable def unwrapAngle (currentAngle previousAngle : ℝ) : ℝ :=
  let delta := currentAngle - previousAngle
  previousAngle + addLoop (subLoop delta)

/-- After the subtracting loop the delta is at most `π`, and the loop has
only subtracted whole multiples of `2π`. -/
theorem subLoop_spec (delta : ℝ) :
    subLoop delta ≤ Real.pi ∧ ∃ k : ℕ, subLoop delta = delta - 2 * Real.pi * k := by
  rw [subLoop]
  split_ifs with h
  · obtain ⟨hle, k, hk⟩ := subLoop_spec (delta - 2 * Real.pi)
    refine ⟨hle, k + 1, ?_⟩
    rw [hk]
    push_cast
    ring
  · exact ⟨le_of_not_lt h, 0, by simp⟩
termination_by Nat.ceil ((delta - Real.pi) / (2 * Real.pi))
decreasing_by
  have hπ : (0 : ℝ) < 2 * Real.pi := by positivity
  have h1 : (delta - 2 * Real.pi - Real.pi) / (2 * Real.pi)
      = (delta - Real.pi) / (2 * Real.pi) - 1 := by
    field_simp
    ring
  have h2 : 0 < (delta - Real.pi) / (2 * Real.pi) :=
    div_pos (by linarith) hπ
  simpa [h1] using ceil_pred_lt _ h2

/-- After the adding loop the delta is at least `-π`; the loop only adds
whole multiples of `2π`; and it does not push a delta that was already at
most `π` beyond `π`. -/
theorem addLoop_spec (delta : ℝ) :
    (-Real.pi ≤ addLoop delta ∧ ∃ k : ℕ, addLoop delta = delta + 2 * Real.pi * k)
      ∧ (delta ≤ Real.pi → addLoop delta ≤ Real.pi) := by
  rw [addLoop]
  split_ifs with h
  · obtain ⟨⟨hge, k, hk⟩, hbound⟩ := addLoop_spec (delta + 2 * Real.pi)
    have hπ : (0 : ℝ) < Real.pi := Real.pi_pos
    refine ⟨⟨hge, k + 1, ?_⟩, fun _ => hbound (by linarith)⟩
    rw [hk]
    push_cast
    ring
  · exact ⟨⟨le_of_not_lt h, 0, by simp⟩, fun hle => hle⟩
termination_by Nat.ceil ((-Real.pi - delta) / (2 * Real.pi))
decreasing_by
  have hπ : (0 : ℝ) < 2 * Real.pi := by positivity
  have h1 : (-Real.pi - (delta + 2 * Real.pi)) / (2 * Real.pi)
      = (-Real.pi - delta) / (2 * Real.pi) - 1 := by
    field_simp
    ring
  have h2 : 0 < (-Real.pi - delta) / (2 * Real.pi) :=
    div_pos (by linarith) hπ
  simpa [h1] using ceil_pred_lt _ h2

/-- The normalised delta produced inside `unwrapAngle` lies in `[-π, π]`. -/
theorem unwrapAngle_sub_previous_bounds (currentAngle previousAngle : ℝ) :
    -Real.pi ≤ unwrapAngle currentAngle previousAngle - previousAngle
      ∧ unwrapAngle currentAngle previousAngle - previousAngle ≤ Real.pi := by
  unfold unwrapAngle
  obtain ⟨hsub, _⟩ := subLoop_spec (currentAngle - previousAngle)
  obtain ⟨⟨hge, _⟩, hle⟩ := addLoop_spec (subLoop (currentAngle - previousAngle))
  constructor
  · simpa using hge
  · simpa using hle hsub

/-- Unwrapping only shifts the current angle by an integer multiple of `2π`. -/
theorem unwrapAngle_eq_add_int_mul (currentAngle previousAngle : ℝ) :
    ∃ k : ℤ, unwrapAngle currentAngle previousAngle
      = currentAngle + 2 * Real.pi * k := by
  obtain ⟨_, k1, hk1⟩ := subLoop_spec (currentAngle - previousAngle)
  obtain ⟨⟨_, k2, hk2⟩, _⟩ := addLoop_spec (subLoop (currentAngle - previousAngle))
  refine ⟨(k2 : ℤ) - k1, ?_⟩
  simp only [unwrapAngle]
  rw [hk2, hk1]
  push_cast
  ring

/-- When the raw delta is already within `[-π, π]` both loops are the
identity, so unwrapping returns the current angle unchanged. -/
theorem unwrapAngle_id_of_small (currentAngle previousAngle : ℝ)
    (h : |currentAngle - previousAngle| ≤ Real.pi) :
    unwrapAngle currentAngle previousAngle = currentAngle := by
  obtain ⟨hlo, hhi⟩ := abs_le.mp h
  show previousAngle + addLoop (subLoop (currentAngle - previousAngle)) = currentAngle
  rw [subLoop]
  rw [dif_neg (not_lt.mpr hhi)]
  rw [addLoop]
  rw [dif_neg (not_lt.mpr hlo)]
  ring

/-- C1: for every pair of finite angles, the unwrapped angle differs from
the previous angle by at most `π` in absolute value. -/
theorem C1_unwrap_within_pi_of_previous (currentAngle previousAngle : ℝ) :
    |unwrapAngle currentAngle previousAngle - previousAngle| ≤ Real.pi := by
  obtain ⟨hlo, hhi⟩ := unwrapAngle_sub_previous_bounds currentAngle previousAngle
  exact abs_le.mpr ⟨hlo, hhi⟩

/-- C4: for every pair of finite angles, `unwrapAngle current previous` is
congruent to `current` modulo `2π`: the function changes the input value
only by an integer multiple of `2π`. -/
theorem C4_unwrap_congruent_mod_two_pi (currentAngle previousAngle : ℝ) :
    ∃ k : ℤ, unwrapAngle currentAngle previousAngle
      = currentAngle + 2 * Real.pi * k :=
  unwrapAngle_eq_add_int_mul currentAngle previousAngle

/-- C9: whenever the raw step is already continuous
(`|current - previous| ≤ π`), unwrapping is the identity on the current
angle; in particular `unwrapAngle a a = a`. -/
theorem C9_unwrap_identity_on_small_step (currentAngle previousAngle : ℝ)
    (h : |currentAngle - previousAngle| ≤ Real.pi) :
    unwrapAngle currentAngle previousAngle = currentAngle :=
  unwrapAngle_id_of_small currentAngle previousAngle h

/-- Witness for C9 at the concrete input `current = previous = 1`. -/
theorem C9_witness :
    |(1 : ℝ) - 1| ≤ Real.pi ∧ unwrapAngle 1 1 = 1 := by
  have h : |(1 : ℝ) - 1| ≤ Real.pi := by
    simpa using Real.pi_pos.le
  exact ⟨h, C9_unwrap_identity_on_small_step 1 1 h⟩

/-- Embedding of JavaScript `Math.atan2(y, x)` as the argument of the
complex number `x + y*i`; the two functions agree on all real inputs,
including `atan2 0 0 = 0 = arg 0`. -/
noncomputable def atan2 (y x : ℝ) : ℝ := Complex.arg ⟨x, y⟩

/-- Result record of `transformToRadarCoordinates` (newer math.ts). -/
structure RadarCoord where
  x : ℝ
  y : ℝ
  distance : ℝ
  relativeAngle : ℝ

/-- Horizontal offset magnitude `sqrt(dx*dx + dy*dy)` between car and
player, as computed inside `transformToRadarCoordinates`. -/
noncomputable def horizontalDistance (car : Car) (player : Player) : ℝ :=
  Real.sqrt ((car.position.x - player.position.x) * (car.position.x - player.position.x)
    + (car.position.y - player.position.y) * (car.position.y - player.position.y))

/-- World-frame bearing `atan2(dy, dx)` of the car from the player, as
computed inside `transformToRadarCoordinates`. -/
noncomputable def rawBearing (car : Car) (player : Player) : ℝ :=
  atan2 (car.position.y - player.position.y) (car.position.x - player.position.x)

/-- Embedding of `transformToRadarCoordinates` from the newer math.ts:
computes the relative 3D offset, its full and horizontal magnitudes,
short-circuits when the horizontal magnitude is below `0.001`, otherwise
computes the relative bearing with `atan2`, optionally unwraps it against
the supplied previous relative angle, subtracts the yaw (the supplied
unwrapped yaw when present, else the player's raw yaw, matching
`unwrappedYaw !== undefined ? unwrappedYaw : player.yaw`), and projects
with sine and cosine. -/
noncomputable def transformToRadarCoordinates (car : Car) (player : Player)
    (unwrappedYaw : Option ℝ) (previousRelativeAngle : Option ℝ) : RadarCoord :=
  let dx := car.position.x - player.position.x
  let dy := car.position.y - player.position.y
  let dz := car.position.z - player.position.z
  let distance := Real.sqrt (dx * dx + dy * dy + dz * dz)
  let hdist := Real.sqrt (dx * dx + dy * dy)
  if hdist < 0.001 then
    { x := 0, y := 0, distance := distance, relativeAngle := 0 }
  else
    let yawToUse := unwrappedYaw.getD player.yaw
    let relativeAngle :=
      match previousRelativeAngle with
      | some p => unwrapAngle (atan2 dy dx) p
      | none => atan2 dy dx
    let radarAngle := relativeAngle - yawToUse
    { x := hdist * Real.sin radarAngle
      y := hdist * Real.cos radarAngle
      distance := distance
      relativeAngle := relativeAngle }

/-- Relative angle produced inside the main branch of
`transformToRadarCoordinates`: the raw bearing, unwrapped against the
previous relative angle when one is supplied. -/
noncomputable def trackedRelativeAngle (car : Car) (player : Player)
    (previousRelativeAngle : Option ℝ) : ℝ :=
  match previousRelativeAngle with
  | some p => unwrapAngle (rawBearing car player) p
  | none => rawBearing car player

/-- Pixel-space point returned by `worldToPixel`. -/
structure Pixel where
  x : ℝ
  y : ℝ

/-- Embedding of `worldToPixel` from src/utils/math.ts (both versions are
identical): the uniform scale `pixelRadius / worldRadius` is applied to
both coordinates, with no validation of `worldRadius`. -/
noncomputable def worldToPixel (worldX worldY worldRadius pixelRadius : ℝ) : Pixel :=
  let scale := pixelRadius / worldRadius
  { x := worldX * scale, y := worldY * scale }

/-- Closed-form value of `transformToRadarCoordinates` in the main
(non-degenerate) branch. -/
theorem transform_main_eq (car : Car) (player : Player)
    (uw prel : Option ℝ) (h : 0.001 ≤ horizontalDistance car player) :
    transformToRadarCoordinates car player uw prel
      = { x := horizontalDistance car player
            * Real.sin (trackedRelativeAngle car player prel - uw.getD player.yaw)
          y := horizontalDistance car player
            * Real.cos (trackedRelativeAngle car player prel - uw.getD player.yaw)
          distance := calculateDistance player.position car.position
          relativeAngle := trackedRelativeAngle car player prel } := by
  rw [horizontalDistance] at h
  cases prel with
  | none =>
      simp only [transformToRadarCoordinates, trackedRelativeAngle, rawBearing,
        horizontalDistance, calculateDistance, if_neg (not_lt.mpr h)]
  | some p =>
      simp only [transformToRadarCoordinates, trackedRelativeAngle, rawBearing,
        horizontalDistance, calculateDistance, if_neg (not_lt.mpr h)]

/-- Closed-form value of `transformToRadarCoordinates` in the degenerate
branch (horizontal distance below the `0.001` threshold). -/
theorem transform_degenerate_eq (car : Car) (player : Player)
    (uw prel : Option ℝ) (h : horizontalDistance car player < 0.001) :
    transformToRadarCoordinates car player uw prel
      = { x := 0, y := 0,
          distance := calculateDistance player.position car.position
          relativeAngle := 0 } := by
  rw [horizontalDistance] at h
  simp only [transformToRadarCoordinates, calculateDistance, if_pos h]

/-- The tracked relative angle differs from the raw bearing by an integer
multiple of `2π`. -/
theorem trackedRelativeAngle_congruent (car : Car) (player : Player)
    (prel : Option ℝ) :
    ∃ m : ℤ, trackedRelativeAngle car player prel
      = rawBearing car player + 2 * Real.pi * m := by
  cases prel with
  | none => exact ⟨0, by simp [trackedRelativeAngle]⟩
  | some p =>
      obtain ⟨k, hk⟩ := unwrapAngle_eq_add_int_mul (rawBearing car player) p
      exact ⟨k, by simpa [trackedRelativeAngle] using hk⟩

/-- The distance field of the transform result is the 3D Euclidean
distance between player and car, in both branches. -/
theorem transform_distance_eq (car : Car) (player : Player)
    (uw prel : Option ℝ) :
    (transformToRadarCoordinates car player uw prel).distance
      = calculateDistance player.position car.position := by
  rcases lt_or_ge (horizontalDistance car player) 0.001 with h | h
  · rw [transform_degenerate_eq car player uw prel h]
  · rw [transform_main_eq car player uw prel h]

/-- Concrete player used by the witnesses: at the origin with yaw 0. -/
def wPlayer : Player := ⟨⟨0, 0, 0⟩, 0⟩

/-- Concrete car used by the C7 witness: directly above the player. -/
def w7car : Car := ⟨⟨0, 0, 5⟩, CarClass.Unknown, none, none, none⟩

/-- Concrete car used by the C5 witness: one meter north of the player. -/
def w5car : Car := ⟨⟨0, 1, 0⟩, CarClass.Unknown, none, none, none⟩

/-- Concrete car used by the C10 witness: at offset (3, 4, 0). -/
def w10car : Car := ⟨⟨3, 4, 0⟩, CarClass.Unknown, none, none, none⟩

/-- C2 counterexample: `worldToPixel` called with the non-positive world
radius `-2` raises no error; it silently returns the coordinates scaled
by the negative factor `150 / (-2) = -75`. -/
theorem C2_counterexample :
    worldToPixel 1 0 (-2) 150 = ⟨-75, 0⟩ ∧ (150 : ℝ) / (-2) < 0 := by
  constructor
  · simp only [worldToPixel, Pixel.mk.injEq]
    norm_num
  · norm_num

/-- C2 amended: `worldToPixel` performs no validation of `worldRadius`;
for every input, including non-positive radii, it returns the coordinates
multiplied by the scale `pixelRadius / worldRadius`. -/
theorem C2_no_validation (worldX worldY worldRadius pixelRadius : ℝ) :
    worldToPixel worldX worldY worldRadius pixelRadius
      = ⟨worldX * (pixelRadius / worldRadius),
         worldY * (pixelRadius / worldRadius)⟩ := rfl

/-- C7: when the horizontal offset magnitude is below `0.001`, the
transform short-circuits to `{x = 0, y = 0, distance, relativeAngle = 0}`
with `distance` the full 3D distance, raising no error. -/
theorem C7_short_circuit (car : Car) (player : Player) (uw prel : Option ℝ)
    (h : horizontalDistance car player < 0.001) :
    transformToRadarCoordinates car player uw prel
      = ⟨0, 0, calculateDistance player.position car.position, 0⟩ :=
  transform_degenerate_eq car player uw prel h

/-- Witness for C7 at the spec scenario: player at the origin, entity at
(0, 0, 5) directly above, yielding x = 0, y = 0, distance = 5. -/
theorem C7_witness :
    horizontalDistance w7car wPlayer < 0.001
      ∧ transformToRadarCoordinates w7car wPlayer none none = ⟨0, 0, 5, 0⟩ := by
  have h : horizontalDistance w7car wPlayer < 0.001 := by
    simp only [horizontalDistance, w7car, wPlayer]
    norm_num
  refine ⟨h, ?_⟩
  rw [C7_short_circuit w7car wPlayer none none h]
  have h5 : calculateDistance wPlayer.position w7car.position = 5 := by
    simp only [calculateDistance, w7car, wPlayer]
    norm_num
    rw [show (25 : ℝ) = 5 ^ 2 by norm_num, Real.sqrt_sq (by norm_num)]
  rw [h5]

/-- C5: in the main branch the transform projects with
`x = h * sin(relativeAngle - yaw)` and `y = h * cos(relativeAngle - yaw)`
(yaw being the supplied unwrapped yaw, else the player's raw yaw); an
entity whose bearing equals the yaw modulo `2π` (directly ahead) maps to
`(0, h)`, and an entity whose bearing is the yaw plus `π` modulo `2π`
(directly behind) maps to `(0, -h)`. -/
theorem C5_projection_formula (car : Car) (player : Player)
    (uw prel : Option ℝ) (h : 0.001 ≤ horizontalDistance car player) :
    ((transformToRadarCoordinates car player uw prel).x
        = horizontalDistance car player
          * Real.sin ((transformToRadarCoordinates car player uw prel).relativeAngle
              - uw.getD player.yaw)
      ∧ (transformToRadarCoordinates car player uw prel).y
        = horizontalDistance car player
          * Real.cos ((transformToRadarCoordinates car player uw prel).relativeAngle
              - uw.getD player.yaw))
    ∧ (∀ k : ℤ, rawBearing car player = uw.getD player.yaw + 2 * Real.pi * k →
        (transformToRadarCoordinates car player uw prel).x = 0
          ∧ (transformToRadarCoordinates car player uw prel).y
            = horizontalDistance car player)
    ∧ (∀ k : ℤ,
        rawBearing car player = uw.getD player.yaw + Real.pi + 2 * Real.pi * k →
        (transformToRadarCoordinates car player uw prel).x = 0
          ∧ (transformToRadarCoordinates car player uw prel).y
            = -horizontalDistance car player) := by
  rw [transform_main_eq car player uw prel h]
  dsimp only
  obtain ⟨m, hm⟩ := trackedRelativeAngle_congruent car player prel
  refine ⟨⟨rfl, rfl⟩, ?_, ?_⟩
  · intro k hk
    have hang : trackedRelativeAngle car player prel - uw.getD player.yaw
        = ((k + m : ℤ) : ℝ) * (2 * Real.pi) := by
      rw [hm, hk]
      push_cast
      ring
    constructor
    · rw [hang, show ((k + m : ℤ) : ℝ) * (2 * Real.pi)
          = ((2 * (k + m) : ℤ) : ℝ) * Real.pi by push_cast; ring,
        Real.sin_int_mul_pi, mul_zero]
    · rw [hang, Real.cos_int_mul_two_pi, mul_one]
  · intro k hk
    have hang : trackedRelativeAngle car player prel - uw.getD player.yaw
        = Real.pi + ((k + m : ℤ) : ℝ) * (2 * Real.pi) := by
      rw [hm, hk]
      push_cast
      ring
    constructor
    · rw [hang, Real.sin_add_int_mul_two_pi, Real.sin_pi, mul_zero]
    · rw [hang, Real.cos_add_int_mul_two_pi, Real.cos_pi]
      ring

/-- Witness for C5 at the concrete input: player at the origin with yaw 0
and a car one meter north, whose horizontal offset magnitude is 1. -/
theorem C5_witness :
    (0.001 : ℝ) ≤ horizontalDistance w5car wPlayer
      ∧ (((transformToRadarCoordinates w5car wPlayer none none).x
            = horizontalDistance w5car wPlayer
              * Real.sin ((transformToRadarCoordinates w5car wPlayer none none).relativeAngle
                  - (none : Option ℝ).getD wPlayer.yaw)
          ∧ (transformToRadarCoordinates w5car wPlayer none none).y
            = horizontalDistance w5car wPlayer
              * Real.cos ((transformToRadarCoordinates w5car wPlayer none none).relativeAngle
                  - (none : Option ℝ).getD wPlayer.yaw))
        ∧ (∀ k : ℤ,
            rawBearing w5car wPlayer
              = (none : Option ℝ).getD wPlayer.yaw + 2 * Real.pi * k →
            (transformToRadarCoordinates w5car wPlayer none none).x = 0
              ∧ (transformToRadarCoordinates w5car wPlayer none none).y
                = horizontalDistance w5car wPlayer)
        ∧ (∀ k : ℤ,
            rawBearing w5car wPlayer
              = (none : Option ℝ).getD wPlayer.yaw + Real.pi + 2 * Real.pi * k →
            (transformToRadarCoordinates w5car wPlayer none none).x = 0
              ∧ (transformToRadarCoordinates w5car wPlayer none none).y
                = -horizontalDistance w5car wPlayer)) := by
  have h : (0.001 : ℝ) ≤ horizontalDistance w5car wPlayer := by
    simp only [horizontalDistance, w5car, wPlayer]
    norm_num
  exact ⟨h, C5_projection_formula w5car wPlayer none none h⟩

/-- The planar magnitude of the transformed point never exceeds the 3D
distance: it is the horizontal offset magnitude in the main branch and 0
in the degenerate branch. -/
theorem transform_norm_le_distance (car : Car) (player : Player)
    (uw prel : Option ℝ) :
    Real.sqrt ((transformToRadarCoordinates car player uw prel).x
          * (transformToRadarCoordinates car player uw prel).x
        + (transformToRadarCoordinates car player uw prel).y
          * (transformToRadarCoordinates car player uw prel).y)
      ≤ (transformToRadarCoordinates car player uw prel).distance := by
  rcases lt_or_ge (horizontalDistance car player) 0.001 with h | h
  · rw [transform_degenerate_eq car player uw prel h]
    dsimp only
    rw [mul_zero, add_zero, Real.sqrt_zero]
    exact Real.sqrt_nonneg _
  · rw [transform_main_eq car player uw prel h]
    dsimp only
    set θ := trackedRelativeAngle car player prel - uw.getD player.yaw with hθ
    have hsq : horizontalDistance car player * Real.sin θ
          * (horizontalDistance car player * Real.sin θ)
        + horizontalDistance car player * Real.cos θ
          * (horizontalDistance car player * Real.cos θ)
        = horizontalDistance car player * horizontalDistance car player := by
      have h1 := Real.sin_sq_add_cos_sq θ
      nlinarith [h1]
    have hnn : 0 ≤ horizontalDistance car player := by
      unfold horizontalDistance
      exact Real.sqrt_nonneg _
    rw [hsq, Real.sqrt_mul_self hnn]
    unfold horizontalDistance calculateDistance
    apply Real.sqrt_le_sqrt
    nlinarith [mul_self_nonneg (car.position.z - player.position.z)]

/-- C10: the transformed point's planar magnitude is at most the 3D
distance; consequently, whenever the distance is within the (positive)
world radius, the `worldToPixel`-scaled point lies inside the pixel-radius
circle. -/
theorem C10_inside_radar_circle (car : Car) (player : Player)
    (uw prel : Option ℝ) (radius pixelRadius : ℝ)
    (hr : 0 < radius) (hp : 0 ≤ pixelRadius)
    (hin : (transformToRadarCoordinates car player uw prel).distance ≤ radius) :
    Real.sqrt ((transformToRadarCoordinates car player uw prel).x
          * (transformToRadarCoordinates car player uw prel).x
        + (transformToRadarCoordinates car player uw prel).y
          * (transformToRadarCoordinates car player uw prel).y)
      ≤ (transformToRadarCoordinates car player uw prel).distance
    ∧ Real.sqrt
        ((worldToPixel (transformToRadarCoordinates car player uw prel).x
              (transformToRadarCoordinates car player uw prel).y radius pixelRadius).x
          * (worldToPixel (transformToRadarCoordinates car player uw prel).x
              (transformToRadarCoordinates car player uw prel).y radius pixelRadius).x
        + (worldToPixel (transformToRadarCoordinates car player uw prel).x
              (transformToRadarCoordinates car player uw prel).y radius pixelRadius).y
          * (worldToPixel (transformToRadarCoordinates car player uw prel).x
              (transformToRadarCoordinates car player uw prel).y radius pixelRadius).y)
      ≤ pixelRadius := by
  refine ⟨transform_norm_le_distance car player uw prel, ?_⟩
  set r := transformToRadarCoordinates car player uw prel with hrdef
  set s := pixelRadius / radius with hs
  have hs0 : 0 ≤ s := div_nonneg hp hr.le
  have hpx : (worldToPixel r.x r.y radius pixelRadius).x = r.x * s := rfl
  have hpy : (worldToPixel r.x r.y radius pixelRadius).y = r.y * s := rfl
  rw [hpx, hpy]
  have hfactor : r.x * s * (r.x * s) + r.y * s * (r.y * s)
      = (r.x * r.x + r.y * r.y) * (s * s) := by ring
  rw [hfactor, Real.sqrt_mul (add_nonneg (mul_self_nonneg _) (mul_self_nonneg _)),
    Real.sqrt_mul_self hs0]
  have h1 : Real.sqrt (r.x * r.x + r.y * r.y) * s ≤ r.distance * s :=
    mul_le_mul_of_nonneg_right (transform_norm_le_distance car player uw prel) hs0
  have h2 : r.distance * s ≤ radius * s :=
    mul_le_mul_of_nonneg_right hin hs0
  have h3 : radius * s = pixelRadius := by
    rw [hs, mul_comm, div_mul_cancel₀ _ (ne_of_gt hr)]
  linarith

/-- Witness for C10 at the concrete input: player at the origin, car at
(3, 4, 0) (3D distance 5), radius 20, pixel radius 150. -/
theorem C10_witness :
    (0 : ℝ) < 20 ∧ (0 : ℝ) ≤ 150
      ∧ (transformToRadarCoordinates w10car wPlayer none none).distance ≤ 20
      ∧ (Real.sqrt ((transformToRadarCoordinates w10car wPlayer none none).x
              * (transformToRadarCoordinates w10car wPlayer none none).x
            + (transformToRadarCoordinates w10car wPlayer none none).y
              * (transformToRadarCoordinates w10car wPlayer none none).y)
          ≤ (transformToRadarCoordinates w10car wPlayer none none).distance
        ∧ Real.sqrt
            ((worldToPixel (transformToRadarCoordinates w10car wPlayer none none).x
                  (transformToRadarCoordinates w10car wPlayer none none).y 20 150).x
              * (worldToPixel (transformToRadarCoordinates w10car wPlayer none none).x
                  (transformToRadarCoordinates w10car wPlayer none none).y 20 150).x
            + (worldToPixel (transformToRadarCoordinates w10car wPlayer none none).x
                  (transformToRadarCoordinates w10car wPlayer none none).y 20 150).y
              * (worldToPixel (transformToRadarCoordinates w10car wPlayer none none).x
                  (transformToRadarCoordinates w10car wPlayer none none).y 20 150).y)
          ≤ 150) := by
  have hdist : (transformToRadarCoordinates w10car wPlayer none none).distance = 5 := by
    rw [transform_distance_eq]
    simp only [calculateDistance, w10car, wPlayer]
    norm_num
    rw [show (25 : ℝ) = 5 ^ 2 by norm_num, Real.sqrt_sq (by norm_num)]
  have hin : (transformToRadarCoordinates w10car wPlayer none none).distance ≤ 20 := by
    rw [hdist]
    norm_num
  exact ⟨by norm_num, by norm_num, hin,
    C10_inside_radar_circle w10car wPlayer none none 20 150 (by norm_num) (by norm_num) hin⟩

/-- C8: `calculateDistance` is the Euclidean distance: it vanishes exactly
on equal positions and is symmetric in its two arguments. -/
theorem C8_distance_zero_iff_eq_and_symm (a b : Position) :
    (calculateDistance a b = 0 ↔ a = b)
      ∧ calculateDistance a b = calculateDistance b a := by
  refine ⟨⟨?_, ?_⟩, ?_⟩
  · intro h
    simp only [calculateDistance] at h
    have hle : (b.x - a.x) * (b.x - a.x) + (b.y - a.y) * (b.y - a.y)
        + (b.z - a.z) * (b.z - a.z) ≤ 0 := Real.sqrt_eq_zero'.mp h
    have hx : b.x - a.x = 0 := by
      have h1 : (b.x - a.x) * (b.x - a.x) = 0 :=
        le_antisymm (by nlinarith [mul_self_nonneg (b.y - a.y),
          mul_self_nonneg (b.z - a.z)]) (mul_self_nonneg _)
      exact mul_self_eq_zero.mp h1
    have hy : b.y - a.y = 0 := by
      have h1 : (b.y - a.y) * (b.y - a.y) = 0 :=
        le_antisymm (by nlinarith [mul_self_nonneg (b.x - a.x),
          mul_self_nonneg (b.z - a.z)]) (mul_self_nonneg _)
      exact mul_self_eq_zero.mp h1
    have hz : b.z - a.z = 0 := by
      have h1 : (b.z - a.z) * (b.z - a.z) = 0 :=
        le_antisymm (by nlinarith [mul_self_nonneg (b.x - a.x),
          mul_self_nonneg (b.y - a.y)]) (mul_self_nonneg _)
      exact mul_self_eq_zero.mp h1
    ext
    · linarith
    · linarith
    · linarith
  · intro h
    subst h
    simp [calculateDistance]
  · simp only [calculateDistance]
    congr 1
    ring

/-- Sort key used by the comparator
`(a.distance || 0) - (b.distance || 0)` in `filterCarsInRange`: the
recorded distance, with an absent value read as 0. -/
noncomputable def distOr0 (c : Car) : ℝ := c.distance.getD 0

/-- Filter predicate `car.distance <= radius` of `filterCarsInRange`; an
absent distance compares false, as `undefined <= r` does in JavaScript
(the map stage always sets the field, so this case never fires there). -/
noncomputable def inRange (radius : ℝ) (c : Car) : Bool :=
  match c.distance with
  | some d => decide (d ≤ radius)
  | none => false

/-- Insertion step of the stable ascending sort: the new element is
placed before the first element whose key is not smaller. -/
noncomputable def insertByDistance (c : Car) : List Car → List Car
  | [] => [c]
  | d :: ds =>
      if distOr0 c ≤ distOr0 d then c :: d :: ds else d :: insertByDistance c ds

/-- Embedding of the `.sort((a, b) => (a.distance || 0) - (b.distance || 0))`
stage of `filterCarsInRange`.  `Array.prototype.sort` with this comparator
is specified (ECMA-262) to be a stable ascending sort by the key
`distOr0`; a stable insertion sort realises the same specification, and
its stability and sortedness are proved below. -/
noncomputable def sortByDistance : List Car → List Car
  | [] => []
  | c :: cs => insertByDistance c (sortByDistance cs)

/-- Embedding of `filterCarsInRange` from src/utils/math.ts: record each
car's 3D distance to the player, keep those within the radius, sort
ascending by the recorded distance. -/
noncomputable def filterCarsInRange (cars : List Car) (player : Player)
    (radius : ℝ) : List Car :=
  sortByDistance
    ((cars.map (fun car =>
      { car with distance := some (calculateDistance car.position player.position) })).filter
      (inRange radius))

/-- Membership in the insertion step. -/
theorem mem_insertByDistance (a c : Car) (l : List Car) :
    a ∈ insertByDistance c l ↔ a = c ∨ a ∈ l := by
  induction l with
  | nil => simp [insertByDistance]
  | cons d ds ih =>
      simp only [insertByDistance]
      split_ifs with h
      · simp [List.mem_cons]
      · rw [List.mem_cons, ih, List.mem_cons]
        tauto

/-- The insertion step adds exactly one element. -/
theorem length_insertByDistance (c : Car) (l : List Car) :
    (insertByDistance c l).length = l.length + 1 := by
  induction l with
  | nil => simp [insertByDistance]
  | cons d ds ih =>
      simp only [insertByDistance]
      split_ifs with h
      · simp
      · simp [ih]

/-- Membership in the sorted list. -/
theorem mem_sortByDistance (a : Car) (l : List Car) :
    a ∈ sortByDistance l ↔ a ∈ l := by
  induction l with
  | nil => simp [sortByDistance]
  | cons c cs ih =>
      simp [sortByDistance, mem_insertByDistance, ih, List.mem_cons]

/-- Sorting preserves the length. -/
theorem length_sortByDistance (l : List Car) :
    (sortByDistance l).length = l.length := by
  induction l with
  | nil => rfl
  | cons c cs ih =>
      simp only [sortByDistance, length_insertByDistance, ih, List.length_cons]

/-- The insertion step preserves sortedness by the key. -/
theorem pairwise_insertByDistance (c : Car) (l : List Car)
    (hl : l.Pairwise (fun a b => distOr0 a ≤ distOr0 b)) :
    (insertByDistance c l).Pairwise (fun a b => distOr0 a ≤ distOr0 b) := by
  induction l with
  | nil => simp [insertByDistance]
  | cons d ds ih =>
      rw [List.pairwise_cons] at hl
      obtain ⟨hd, hds⟩ := hl
      simp only [insertByDistance]
      split_ifs with h
      · rw [List.pairwise_cons]
        refine ⟨?_, List.pairwise_cons.mpr ⟨hd, hds⟩⟩
        intro x hx
        rcases List.mem_cons.mp hx with rfl | hx
        · exact h
        · exact le_trans h (hd x hx)
      · rw [List.pairwise_cons]
        refine ⟨?_, ih hds⟩
        intro x hx
        rcases (mem_insertByDistance x c ds).mp hx with rfl | hx
        · exact le_of_not_le h
        · exact hd x hx

/-- The sorted list is ascending by the key. -/
theorem pairwise_sortByDistance (l : List Car) :
    (sortByDistance l).Pairwise (fun a b => distOr0 a ≤ distOr0 b) := by
  induction l with
  | nil => simp [sortByDistance]
  | cons c cs ih => exact pairwise_insertByDistance c (sortByDistance cs) ih

/-- Inserting an element does not disturb the subsequence of any fixed
key value, except for prepending the new element when it carries that
key: the elements skipped by the insertion all have strictly smaller
keys. -/
theorem filter_insertByDistance (c : Car) (l : List Car) (v : ℝ) :
    (insertByDistance c l).filter (fun x => decide (distOr0 x = v))
      = if distOr0 c = v
          then c :: l.filter (fun x => decide (distOr0 x = v))
          else l.filter (fun x => decide (distOr0 x = v)) := by
  induction l with
  | nil =>
      simp only [insertByDistance, List.filter]
      by_cases hv : distOr0 c = v <;> simp [hv]
  | cons d ds ih =>
      simp only [insertByDistance]
      by_cases h : distOr0 c ≤ distOr0 d
      · rw [if_pos h]
        by_cases hv : distOr0 c = v
        · rw [if_pos hv]
          simp [List.filter_cons, hv]
        · rw [if_neg hv]
          simp [List.filter_cons, hv]
      · rw [if_neg h]
        have hdv : distOr0 d < distOr0 c := lt_of_not_le h
        by_cases hv : distOr0 c = v
        · have hdne : ¬ distOr0 d = v := by
            rw [← hv]
            exact ne_of_lt hdv
          rw [if_pos hv]
          simp [List.filter_cons, hdne, ih, hv]
        · rw [if_neg hv]
          simp [List.filter_cons, ih, hv]

/-- Sorting is stable: for every key value, the subsequence of elements
carrying that key is unchanged. -/
theorem filter_sortByDistance (l : List Car) (v : ℝ) :
    (sortByDistance l).filter (fun x => decide (distOr0 x = v))
      = l.filter (fun x => decide (distOr0 x = v)) := by
  induction l with
  | nil => rfl
  | cons c cs ih =>
      simp only [sortByDistance, filter_insertByDistance, ih]
      by_cases hv : distOr0 c = v <;> simp [List.filter_cons, hv]

/-- Every member of `filterCarsInRange`'s output records its 3D distance
to the player in its `distance` field and that distance is within the
radius. -/
theorem mem_filterCarsInRange (cars : List Car) (player : Player)
    (radius : ℝ) (c : Car) (hc : c ∈ filterCarsInRange cars player radius) :
    c.distance = some (calculateDistance c.position player.position)
      ∧ calculateDistance c.position player.position ≤ radius := by
  unfold filterCarsInRange at hc
  rw [mem_sortByDistance, List.mem_filter] at hc
  obtain ⟨hmem, hrange⟩ := hc
  rw [List.mem_map] at hmem
  obtain ⟨orig, _, horig⟩ := hmem
  subst horig
  have hrange' :
      decide (calculateDistance orig.position player.position ≤ radius) = true := hrange
  exact ⟨rfl, of_decide_eq_true hrange'⟩

/-- C6: every car retained by `filterCarsInRange` has 3D distance to the
player within the radius; the output is sorted ascending by that
distance; the sort is stable (for each key value the subsequence of cars
carrying it equals the one in the filtered input, whose order is the
input order); and the output is never longer than the input. -/
theorem C6_filter_sort_spec (cars : List Car) (player : Player) (radius : ℝ) :
    (∀ c ∈ filterCarsInRange cars player radius,
        calculateDistance c.position player.position ≤ radius)
    ∧ (filterCarsInRange cars player radius).Pairwise
        (fun a b => calculateDistance a.position player.position
          ≤ calculateDistance b.position player.position)
    ∧ (∀ v : ℝ,
        (filterCarsInRange cars player radius).filter
            (fun x => decide (distOr0 x = v))
          = ((cars.map (fun car =>
              { car with distance := some (calculateDistance car.position player.position) })).filter
              (inRange radius)).filter (fun x => decide (distOr0 x = v)))
    ∧ (filterCarsInRange cars player radius).length ≤ cars.length := by
  refine ⟨?_, ?_, ?_, ?_⟩
  · intro c hc
    exact (mem_filterCarsInRange cars player radius c hc).2
  · have hpw : (filterCarsInRange cars player radius).Pairwise
        (fun a b => distOr0 a ≤ distOr0 b) := pairwise_sortByDistance _
    refine hpw.imp_of_mem ?_
    intro a b ha hb hab
    have hda := (mem_filterCarsInRange cars player radius a ha).1
    have hdb := (mem_filterCarsInRange cars player radius b hb).1
    simp only [distOr0, hda, hdb, Option.getD_some] at hab
    exact hab
  · intro v
    exact filter_sortByDistance _ v
  · unfold filterCarsInRange
    rw [length_sortByDistance]
    exact le_trans (List.length_filter_le _ _) (le_of_eq (by simp))

/-- Mutable refs held by the `useRadarUpdate` hook (newer
useRadarUpdate.ts): previous unwrapped player yaw (`previousYawRef`),
previous car positions keyed by slot index
(`previousCarPositionsRef`), previous relative angles keyed by slot
index (`previousRelativeAnglesRef`), and the previous player position
(`previousPlayerPositionRef`). -/
structure RadarState where
  previousYaw : Option ℝ
  previousCarPositions : ℕ → Option Position
  previousRelativeAngles : ℕ → Option ℝ
  previousPlayerPosition : Option Position

/-- Fresh session state: every ref starts null/empty. -/
def initialRadarState : RadarState :=
  ⟨none, fun _ => none, fun _ => none, none⟩

/-- Embedding of the `updateRadar` callback of the newer
useRadarUpdate.ts.  It unwraps the player yaw against the stored
previous yaw (seeding with the raw yaw on the first frame) and stores
the unwrapped value; the jump-detection blocks compute distances but
adjust nothing, so `adjustedPlayerPosition` and `adjustedCars` equal the
inputs; each car's position is recorded keyed by its slot index; the
cars are filtered against the radius using the player carrying the
unwrapped yaw; the player position is stored.  The hook declares
`previousRelativeAnglesRef` but never reads or writes it inside
`updateRadar` (and the renderer calls `transformToRadarCoordinates`
without previous angles), so the `previousRelativeAngles` component
passes through unchanged.  Console/WebSocket logging does not affect the
radar data and is omitted.  Returns the new state with the published
player and filtered car list. -/
noncomputable def updateRadar (radius : ℝ) (s : RadarState)
    (newPlayer : Player) (newCars : List Car) :
    RadarState × Player × List Car :=
  let unwrappedYaw :=
    match s.previousYaw with
    | some prev => unwrapAngle newPlayer.yaw prev
    | none => newPlayer.yaw
  let adjustedPlayerPosition := newPlayer.position
  let adjustedCars := newCars
  let newCarPositions : ℕ → Option Position := fun i =>
    match newCars[i]? with
    | some car => some car.position
    | none => s.previousCarPositions i
  let playerWithUnwrappedYaw : Player := ⟨adjustedPlayerPosition, unwrappedYaw⟩
  let filteredCars := filterCarsInRange adjustedCars playerWithUnwrappedYaw radius
  (⟨some unwrappedYaw, newCarPositions, s.previousRelativeAngles,
      some adjustedPlayerPosition⟩,
    playerWithUnwrappedYaw, filteredCars)

/-- Concrete car used by the C3 failing input. -/
def w3car : Car := ⟨⟨3, 4, 0⟩, CarClass.LMDh, none, none, none⟩

/-- C3 divergence: `updateRadar` never touches the per-slot
previous-relative-angle map — the state component passes through
unchanged on every frame — and in particular ingesting a first frame
carrying one car leaves slot 0 empty, where the claim requires the
seeded unwrapped bearing to be persisted. -/
theorem C3_no_relative_angle_persisted :
    (∀ (radius : ℝ) (s : RadarState) (p : Player) (cars : List Car),
        ((updateRadar radius s p cars).1).previousRelativeAngles
          = s.previousRelativeAngles)
      ∧ ((updateRadar 20 initialRadarState wPlayer [w3car]).1).previousRelativeAngles 0
          = none
      ∧ (0 : ℕ) < ([w3car] : List Car).length := by
  exact ⟨fun _ _ _ _ => rfl, rfl, by norm_num⟩

end Radar
